import Mathlib

/-!
# Verification of the PaddleDetection data-pipeline core

Shallow embedding of `ppdet/data/dataloader.py` and `ppdet/data/__init__.py`:
the per-sample fetch/transform (`_apply_transform`), batch seeding, the
single-worker and multi-worker loader iterators, the field extractor's
recursive flattening (`ExtractFields._flatten`), the multi-device coalescer
(`DataLoaderBuilder.__next__` / `_merge_seq_length`), and `DataLoader.__len__`.

Conventions of the embedding:
- Python exceptions (AssertionError, IndexError on `np.delete`, ValueError on
  `np.random.choice` of an empty list, KeyError, StopIteration) are modelled
  with `Option`: `none` means the Python code raises.
- A Python list comprehension over a fallible body is `mapOpt`: the first
  failing element aborts the whole computation, as an exception would.
- Ambient randomness (`np.random.choice`) is parameterised by an explicit
  draw `r : Nat`; the drawn element of a list `l` is `l[r % l.length]`, so a
  uniformly distributed `r` induces the uniform distribution on `l`.
- The multi-worker iterator's concurrency (worker pool + fetcher thread) is
  modelled by an operational step relation `MWRun` in which completed tickets
  are delivered to the reorder buffer in an arbitrary order, interleaved
  arbitrarily with the consumer's top-up and pop actions; every dispatched
  ticket is delivered at most once and removed at most once.
-/

/-- A list comprehension whose body can raise: `none` aborts the whole list
(the Python exception propagates). -/
def mapOpt (f : α → Option β) : List α → Option (List β)
  | [] => some []
  | a :: l => (f a).bind (fun b => (mapOpt f l).map (fun bs => b :: bs))

/-- Dataset `mode` tag, `'indexable'` or `'iterable'`. -/
inductive Mode where
  | indexable
  | iterable
deriving DecidableEq

/-- A sample: a mapping from field names to values.  The fields the verified
claims inspect are made explicit (`file`, `image`, `batch_seed`); all other
content is collapsed into an opaque `payload`. -/
structure Sample where
  payload : Nat
  file : Nat
  image : Option Nat
  batchSeed : Option Nat
deriving DecidableEq

/-- The dataset contract consumed by the loader (`__init__.py` treats concrete
datasets as external).  `get` is `dataset[idx]`, `samples` is the cached raw
form `dataset.samples[idx]` present when `hasSamples` (Python
`hasattr(dataset, 'samples')`), `readImage` is `dataset._read_image`, and
`stream k` is the `k`-th item pulled from an iterable-mode dataset. -/
structure Dataset where
  mode : Mode
  length : Nat
  get : Nat → Sample
  hasSamples : Bool
  samples : Nat → Sample
  readImage : Nat → Nat
  stream : Nat → Sample

/-- `_Compose`: the transform chain as one callable, with its two cached
capability flags (`use_mixup`, `need_seeding`).  `applySingle` is the chain
applied to one sample; `applyPair` is the chain applied when it contains a
mixup transform, receiving the (primary, secondary) pair. -/
structure Compose where
  use_mixup : Bool
  need_seeding : Bool
  applySingle : Sample → Sample
  applyPair : Sample → Sample → Sample

/-- `np.arange(n)`. -/
def npArange (n : Nat) : List Nat := List.range n

/-- `np.delete(l, i)`: removes position `i`; raises (`none`) when out of
bounds. -/
def npDelete (l : List Nat) (i : Nat) : Option (List Nat) :=
  if i < l.length then some (l.take i ++ l.drop (i + 1)) else none

/-- `np.random.choice(l)` with explicit draw `r`: raises (`none`) on an empty
list, otherwise returns `l[r % l.length]`. -/
def npChoice (l : List α) (r : Nat) : Option α := l.get? (r % l.length)

/-- The secondary-index draw of `_apply_transform` (dataloader.py lines
90-91): `np.random.choice(np.delete(np.arange(len(dataset)), idx))`. -/
def secondaryDraw (n idx r : Nat) : Option Nat :=
  (npDelete (npArange n) idx).bind (fun cands => npChoice cands r)

/-- dataloader.py lines 84-88: fetch `dataset[idx]` and, when a batch seed is
given, attach it to the sample under the reserved `batch_seed` field. -/
def fetchSample (ds : Dataset) (idx : Nat) (batchSeed : Option Nat) : Sample :=
  let sample := ds.get idx
  match batchSeed with
  | some bs => { sample with batchSeed := some bs }
  | none => sample

/-- dataloader.py lines 92-97: fetch the secondary (mixup) sample.  When the
dataset exposes a cached raw form, the code takes `dataset.samples[idx2]` and
then sets its image from `dataset._read_image(sample['file'])` — note that
`sample` is the PRIMARY sample, so the image is loaded from the primary
sample's file (source line 95). -/
def fetchSecondary (ds : Dataset) (primary : Sample) (idx2 : Nat) : Sample :=
  if ds.hasSamples then
    let s2 := ds.samples idx2
    { s2 with image := some (ds.readImage primary.file) }
  else
    ds.get idx2

/-- `_apply_transform(idx, dataset, transform, batch_seed)` (dataloader.py
lines 77-99) with the random draw `r` for the mixup secondary index made
explicit, and `pos` the stream cursor for iterable-mode datasets.  `none`
models a raised exception (the mixup-on-iterable assertion, or a failing
secondary draw). -/
def applyTransformF (ds : Dataset) (tr : Compose) (idx : Nat)
    (batchSeed : Option Nat) (r : Nat) (pos : Nat) : Option Sample :=
  if tr.use_mixup = true ∧ ds.mode ≠ Mode.indexable then none
  else if ds.mode = Mode.iterable then some (tr.applySingle (ds.stream pos))
  else
    let sample := fetchSample ds idx batchSeed
    if tr.use_mixup then
      match secondaryDraw ds.length idx r with
      | none => none
      | some idx2 => some (tr.applyPair sample (fetchSecondary ds sample idx2))
    else some (tr.applySingle sample)

/-- `_SingleWorkerLoaderIter._batch_seed` (dataloader.py lines 146-150):
`(batch_idx + 1) * (rank + 1)` when the chain needs seeding, else `None`. -/
def swBatchSeedF (tr : Compose) (rank batchIdx : Nat) : Option Nat :=
  if tr.need_seeding then some ((batchIdx + 1) * (rank + 1)) else none

/-- `_MultiWorkerLoaderIter._batch_seed` (dataloader.py lines 204-208):
`(sent_idx + 1) * (rank + 1)` when the chain needs seeding, else `None`. -/
def mwBatchSeedF (tr : Compose) (rank sentIdx : Nat) : Option Nat :=
  if tr.need_seeding then some ((sentIdx + 1) * (rank + 1)) else none

/-- `if callable(callback_fn): result = callback_fn(result)` — shared by the
single-worker `__next__` (line 158) and the fetcher loop (line 129). -/
def applyCb (cb : Option (B → B)) (b : B) : B :=
  match cb with
  | some g => g b
  | none => b

/-- The loader configuration shared by both iterators (`DataLoader` fields):
dataset, transform chain, the sampler's finite sequence of index groups, the
batch collator (`_Batchify` instance, abstract here since both iterators use
the same object), the optional callback, the rank, the queue depth, and the
ambient RNG oracle `rng ticket position` supplying mixup draws. -/
structure LoaderModel (B : Type) where
  ds : Dataset
  tr : Compose
  sampler : List (List Nat)
  batchify : List Sample → B
  callback : Option (B → B)
  rank : Nat
  queue_depth : Nat
  rng : Nat → Nat → Nat

/-- The result a worker computes for ticket `i` and the fetcher inserts into
the reorder buffer: `_thread_worker_fn`/`_process_worker_fn` (dataloader.py
lines 107-123) compute `batchify([_apply_transform(j, ...) for j in ids])`
with the batch seed `(sent_idx + 1) * (rank + 1)` fixed at dispatch time
(`_queue_next`, line 216), and `_fetcher_loop_fn` (line 129) applies the
callback before storing. -/
def mwTicketResult (M : LoaderModel B) (i : Nat) : Option B :=
  (M.sampler.get? i).bind (fun ids =>
    (mapOpt (fun pj : Nat × Nat =>
        applyTransformF M.ds M.tr pj.2 (mwBatchSeedF M.tr M.rank i)
          (M.rng i pj.1) 0) ids.enum).map
      (fun samples => applyCb M.callback (M.batchify samples)))

/-- The batch the single-worker in-line iterator yields at position `n`:
`_SingleWorkerLoaderIter.__next__` (dataloader.py lines 152-160) computes
`batchify([_apply_transform(i, ..., _batch_seed()) for i in ids])` with
`_batch_idx = n`, then applies the callback. -/
def swBatchResult (M : LoaderModel B) (n : Nat) : Option B :=
  (M.sampler.get? n).bind (fun ids =>
    (mapOpt (fun pj : Nat × Nat =>
        applyTransformF M.ds M.tr pj.2 (swBatchSeedF M.tr M.rank n)
          (M.rng n pj.1) 0) ids.enum).map
      (fun samples => applyCb M.callback (M.batchify samples)))

/-- The full output sequence of a single-worker pass: one batch per sampler
position, `StopIteration` at the end. -/
def swOutputs (M : LoaderModel B) : Option (List B) :=
  mapOpt (swBatchResult M) (List.range M.sampler.length)

theorem mw_ticket_eq_sw_batch (M : LoaderModel B) (i : Nat) :
    mwTicketResult M i = swBatchResult M i := rfl

/-- The consumer-visible state of `_MultiWorkerLoaderIter`: the dispatch
counter `_sent_idx`, the consumption counter `_recv_idx`, and the shared
reorder buffer `_buffer` as an association list keyed by sequence id. -/
structure MWState (B : Type) where
  sent : Nat
  recv : Nat
  buffer : List (Nat × B)
deriving DecidableEq

/-- `_queue_next` (dataloader.py lines 210-217) as seen on the state: pull
the next index group (available exactly when `sent < K`, `K` the sampler
length) and dispatch it, incrementing `_sent_idx`. -/
def queueNextF (K : Nat) (s : MWState B) : MWState B :=
  if s.sent < K then { s with sent := s.sent + 1 } else s

/-- The top-up loop at the head of `__next__` (dataloader.py line 220):
`for _ in range(queue_depth + 1 + recv_idx - sent_idx): _queue_next()`.
Truncated subtraction matches Python's empty `range` on a negative count. -/
def topupF (K qd : Nat) (s : MWState B) : MWState B :=
  (queueNextF K)^[qd + 1 + s.recv - s.sent] s

/-- The constructor's initial state (dataloader.py lines 175-176, 201-202):
counters at zero, empty buffer, then `queue_depth` calls to `_queue_next`. -/
def mkInit (B : Type) (K qd : Nat) : MWState B :=
  (queueNextF K)^[qd] ⟨0, 0, []⟩

/-- `self._buffer.pop(self._recv_idx)`: remove the entry keyed `i`. -/
def popBuffer (buf : List (Nat × B)) (i : Nat) : List (Nat × B) :=
  buf.filter (fun p => p.1 ≠ i)

/-- One execution of the multi-worker iterator, from state to state, with the
list of batches returned to the consumer.  The constructors over-approximate
the real interleavings: `topup` is the head of a `__next__` call, `deliver`
is the fetcher thread inserting a completed ticket `i` (dispatched: `i <
sent`; not yet delivered: not in the buffer and not yet consumed, i.e.
`recv ≤ i`; carrying the result the worker computed for `i`), and `consume`
is the tail of `__next__`: the blocking wait has found the expected id
`recv` in the buffer, pops it, returns it, and increments `recv`. -/
inductive MWRun (K qd : Nat) (res : Nat → Option B) :
    MWState B → List B → MWState B → Prop where
  | done (s : MWState B) : MWRun K qd res s [] s
  | topup (s : MWState B) (out : List B) (sF : MWState B)
      (htail : MWRun K qd res (topupF K qd s) out sF) :
      MWRun K qd res s out sF
  | deliver (s : MWState B) (i : Nat) (b : B) (out : List B) (sF : MWState B)
      (hi : i < s.sent) (hr : s.recv ≤ i)
      (hfresh : ∀ p ∈ s.buffer, p.1 ≠ i)
      (hres : res i = some b)
      (htail : MWRun K qd res ⟨s.sent, s.recv, (i, b) :: s.buffer⟩ out sF) :
      MWRun K qd res s out sF
  | consume (s : MWState B) (b : B) (out : List B) (sF : MWState B)
      (hmem : (s.recv, b) ∈ s.buffer)
      (htail : MWRun K qd res
        ⟨s.sent, s.recv + 1, popBuffer s.buffer s.recv⟩ out sF) :
      MWRun K qd res s (b :: out) sF

/-- The end-of-stream test of `__next__` (dataloader.py line 222): after the
top-up, `_recv_idx == _sent_idx`, upon which the code asserts the buffer is
empty and raises `StopIteration`. -/
def stopCond (K qd : Nat) (s : MWState B) : Prop :=
  (topupF K qd s).recv = (topupF K qd s).sent

/-- Invariant of the multi-worker iterator state: counters are ordered and
bounded, at most `queue_depth + 1` tickets are in flight, and every buffer
entry is an undelivered-no-more, unconsumed ticket holding its worker's
result, with no duplicated sequence id. -/
structure MWInv (K qd : Nat) (res : Nat → Option B) (s : MWState B) : Prop where
  recv_le : s.recv ≤ s.sent
  sent_le : s.sent ≤ K
  inflight : s.sent ≤ s.recv + qd + 1
  buf_res : ∀ p ∈ s.buffer, res p.1 = some p.2
  buf_lo : ∀ p ∈ s.buffer, s.recv ≤ p.1
  buf_hi : ∀ p ∈ s.buffer, p.1 < s.sent
  buf_nodup : (s.buffer.map Prod.fst).Nodup

theorem queueNextF_sent (K : Nat) (s : MWState B) :
    queueNextF K s = { s with sent := if s.sent < K then s.sent + 1 else s.sent } := by
  rw [queueNextF]
  split <;> simp

theorem queueNextF_iterate (K : Nat) :
    ∀ (m : Nat) (s : MWState B), s.sent ≤ K →
      (queueNextF K)^[m] s = { s with sent := min (s.sent + m) K } := by
  intro m
  induction m with
  | zero =>
    intro s hs
    simp [Nat.min_eq_left hs]
  | succ m ih =>
    intro s hs
    rw [Function.iterate_succ_apply]
    by_cases h : s.sent < K
    · have h1 : queueNextF K s = { s with sent := s.sent + 1 } := by
        rw [queueNextF_sent, if_pos h]
      rw [h1, ih { s with sent := s.sent + 1 } (by show s.sent + 1 ≤ K; omega)]
      have he : s.sent + 1 + m = s.sent + (m + 1) := by omega
      rw [he]
    · have h1 : queueNextF K s = s := by
        rw [queueNextF_sent, if_neg h]
      rw [h1, ih s hs]
      have he : s.sent = K := by omega
      rw [he, Nat.min_eq_right (Nat.le_add_right K m),
        Nat.min_eq_right (Nat.le_add_right K (m + 1))]

theorem iterate_queueNextF_recv (K : Nat) :
    ∀ (m : Nat) (s : MWState B),
      ((queueNextF K)^[m] s).recv = s.recv ∧
        ((queueNextF K)^[m] s).buffer = s.buffer := by
  intro m
  induction m with
  | zero => intro s; exact ⟨rfl, rfl⟩
  | succ m ih =>
    intro s
    rw [Function.iterate_succ_apply]
    have h1 := ih (queueNextF K s)
    have h2 : (queueNextF K s).recv = s.recv ∧
        (queueNextF K s).buffer = s.buffer := by
      rw [queueNextF]
      split
      · exact ⟨rfl, rfl⟩
      · exact ⟨rfl, rfl⟩
    exact ⟨h1.1.trans h2.1, h1.2.trans h2.2⟩

theorem topupF_recv (K qd : Nat) (s : MWState B) :
    (topupF K qd s).recv = s.recv := (iterate_queueNextF_recv K _ s).1

theorem topupF_buffer (K qd : Nat) (s : MWState B) :
    (topupF K qd s).buffer = s.buffer := (iterate_queueNextF_recv K _ s).2

theorem topupF_eq (K qd : Nat) (s : MWState B) (hs : s.sent ≤ K) :
    topupF K qd s
      = { s with sent := min (s.sent + (qd + 1 + s.recv - s.sent)) K } := by
  rw [topupF, queueNextF_iterate K _ s hs]

theorem mkInit_eq (B : Type) (K qd : Nat) :
    mkInit B K qd = ⟨min qd K, 0, []⟩ := by
  rw [mkInit, queueNextF_iterate K qd ⟨0, 0, []⟩ (Nat.zero_le K)]
  simp

theorem mkInit_inv (B : Type) (K qd : Nat) (res : Nat → Option B) :
    MWInv K qd res (mkInit B K qd) := by
  rw [mkInit_eq]
  refine ⟨Nat.zero_le _, Nat.min_le_right _ _, ?_, ?_, ?_, ?_, ?_⟩
  · show min qd K ≤ 0 + qd + 1
    omega
  · intro p hp
    simp at hp
  · intro p hp
    simp at hp
  · intro p hp
    simp at hp
  · simp

theorem topupF_inv (K qd : Nat) (res : Nat → Option B) (s : MWState B)
    (h : MWInv K qd res s) : MWInv K qd res (topupF K qd s) := by
  have hrl := h.recv_le
  have hsl := h.sent_le
  have hif := h.inflight
  rw [topupF_eq K qd s h.sent_le]
  refine ⟨?_, ?_, ?_, h.buf_res, h.buf_lo, ?_, h.buf_nodup⟩
  · show s.recv ≤ min (s.sent + (qd + 1 + s.recv - s.sent)) K
    omega
  · show min (s.sent + (qd + 1 + s.recv - s.sent)) K ≤ K
    omega
  · show min (s.sent + (qd + 1 + s.recv - s.sent)) K ≤ s.recv + qd + 1
    omega
  · intro p hp
    have hhi := h.buf_hi p hp
    show p.1 < min (s.sent + (qd + 1 + s.recv - s.sent)) K
    omega

/-- Induction workhorse for the multi-worker iterator: along any execution,
the invariant is preserved, `_recv_idx` is monotone, and the batches
returned are exactly the ticket results `res recv, res (recv+1), ...` in
strictly increasing sequence-id order. -/
theorem mwRun_spec {K qd : Nat} {res : Nat → Option B}
    {s : MWState B} {out : List B} {sF : MWState B}
    (hrun : MWRun K qd res s out sF) (hinv : MWInv K qd res s) :
    MWInv K qd res sF ∧ s.recv ≤ sF.recv ∧
      mapOpt res (List.range' s.recv (sF.recv - s.recv)) = some out := by
  induction hrun with
  | done s =>
    exact ⟨hinv, Nat.le_refl _, by simp [mapOpt]⟩
  | topup s out sF htail ih =>
    have h2 := ih (topupF_inv K qd res s hinv)
    rw [topupF_recv] at h2
    exact h2
  | deliver s i b out sF hi hr hfresh hres htail ih =>
    have hinv2 : MWInv K qd res ⟨s.sent, s.recv, (i, b) :: s.buffer⟩ := by
      refine ⟨hinv.recv_le, hinv.sent_le, hinv.inflight, ?_, ?_, ?_, ?_⟩
      · intro p hp
        rcases List.mem_cons.mp hp with h | h
        · subst h
          exact hres
        · exact hinv.buf_res p h
      · intro p hp
        rcases List.mem_cons.mp hp with h | h
        · subst h
          exact hr
        · exact hinv.buf_lo p h
      · intro p hp
        rcases List.mem_cons.mp hp with h | h
        · subst h
          exact hi
        · exact hinv.buf_hi p h
      · simp only [List.map_cons, List.nodup_cons]
        refine ⟨?_, hinv.buf_nodup⟩
        intro hmem
        rcases List.mem_map.mp hmem with ⟨p, hp, hpe⟩
        exact hfresh p hp hpe
    exact ih hinv2
  | consume s b out sF hmem htail ih =>
    have hres : res s.recv = some b := hinv.buf_res _ hmem
    have hlt : s.recv < s.sent := hinv.buf_hi _ hmem
    have hinv2 : MWInv K qd res
        ⟨s.sent, s.recv + 1, popBuffer s.buffer s.recv⟩ := by
      refine ⟨hlt, hinv.sent_le, ?_, ?_, ?_, ?_, ?_⟩
      · show s.sent ≤ s.recv + 1 + qd + 1
        have := hinv.inflight
        omega
      · intro p hp
        exact hinv.buf_res p (List.mem_of_mem_filter hp)
      · intro p hp
        have h1 := hinv.buf_lo p (List.mem_of_mem_filter hp)
        have h2 := List.of_mem_filter hp
        simp only [decide_eq_true_eq] at h2
        show s.recv + 1 ≤ p.1
        omega
      · intro p hp
        exact hinv.buf_hi p (List.mem_of_mem_filter hp)
      · exact hinv.buf_nodup.sublist (List.Sublist.map _ (List.filter_sublist _))
    have h2 := ih hinv2
    have hmono : s.recv + 1 ≤ sF.recv := h2.2.1
    refine ⟨h2.1, by omega, ?_⟩
    have hspan : sF.recv - s.recv = (sF.recv - (s.recv + 1)) + 1 := by omega
    rw [hspan, List.range'_succ, mapOpt, hres]
    have h3 := h2.2.2
    rw [h3]
    rfl

theorem mapOpt_length (f : α → Option β) :
    ∀ (l : List α) (r : List β), mapOpt f l = some r → r.length = l.length := by
  intro l
  induction l with
  | nil =>
    intro r h
    rw [mapOpt] at h
    cases h
    rfl
  | cons a l ih =>
    intro r h
    rw [mapOpt] at h
    cases hfa : f a with
    | none => rw [hfa] at h; cases h
    | some b =>
      rw [hfa] at h
      cases hrec : mapOpt f l with
      | none => rw [hrec] at h; cases h
      | some bs =>
        rw [hrec] at h
        cases h
        simp [ih bs hrec]

theorem iterate_queueNextF_sent_le (K : Nat) :
    ∀ (m : Nat) (s : MWState B), ((queueNextF K)^[m] s).sent ≤ s.sent + m := by
  intro m
  induction m with
  | zero => intro s; exact Nat.le_refl _
  | succ m ih =>
    intro s
    rw [Function.iterate_succ_apply]
    have h1 := ih (queueNextF K s)
    have h2 : (queueNextF K s).sent ≤ s.sent + 1 := by
      rw [queueNextF]
      split
      · exact Nat.le_refl _
      · exact Nat.le_succ _
    omega

/-- C1.  Refinement of the single-worker iterator by the multi-worker
iterator: for any loader over an indexable dataset with a sampler of `K`
index groups, any complete execution of the multi-worker iterator — any
number of workers, any delivery order of completed tickets, i.e. any trace
of `MWRun` that reaches the end-of-stream condition — returns exactly the
`K` batches of the single-worker in-line iterator, in the same order
(batch `n` is the one popped at `_recv_idx = n`, only after batches
`0..n-1` were returned). -/
theorem mw_iter_refines_sw_iter {B : Type} (M : LoaderModel B)
    (out : List B) (sF : MWState B)
    (hmode : M.ds.mode = Mode.indexable)
    (hrun : MWRun M.sampler.length M.queue_depth (mwTicketResult M)
      (mkInit B M.sampler.length M.queue_depth) out sF)
    (hstop : stopCond M.sampler.length M.queue_depth sF) :
    swOutputs M = some out ∧ out.length = M.sampler.length := by
  have hrun2 : MWRun M.sampler.length M.queue_depth (mwTicketResult M)
      ⟨min M.queue_depth M.sampler.length, 0, []⟩ out sF := by
    rw [← mkInit_eq]
    exact hrun
  have hinv0 : MWInv M.sampler.length M.queue_depth (mwTicketResult M)
      ⟨min M.queue_depth M.sampler.length, 0, []⟩ := by
    rw [← mkInit_eq]
    exact mkInit_inv B _ _ _
  obtain ⟨hinv, hmono, hout⟩ := mwRun_spec hrun2 hinv0
  have hstop2 : sF.recv
      = min (sF.sent + (M.queue_depth + 1 + sF.recv - sF.sent))
          M.sampler.length := by
    have := hstop
    rw [stopCond, topupF_eq _ _ sF hinv.sent_le] at this
    exact this
  have hrecvK : sF.recv = M.sampler.length := by
    have h1 := hinv.recv_le
    have h2 := hinv.sent_le
    omega
  have hout2 : mapOpt (mwTicketResult M) (List.range M.sampler.length)
      = some out := by
    rw [List.range_eq_range']
    have h3 : sF.recv - 0 = M.sampler.length := by omega
    rw [← h3]
    exact hout
  have heq : mwTicketResult M = swBatchResult M :=
    funext (fun i => mw_ticket_eq_sw_batch M i)
  constructor
  · rw [swOutputs, ← heq]
    exact hout2
  · have := mapOpt_length (mwTicketResult M) _ _ hout2
    simpa using this

/-- C2.  Bounded in-flight work in the multi-worker iterator: along any
execution, the number of dispatched-but-undelivered tickets
`_sent_idx - _recv_idx` never exceeds `queue_depth + 1`; the constructor
dispatches at most `queue_depth` tickets, each `__next__` top-up dispatches
at most `queue_depth + 1 + _recv_idx - _sent_idx` further tickets, and a
dispatching `_queue_next` increments `_sent_idx` by exactly one. -/
theorem mw_inflight_bounded {B : Type} (K qd : Nat) (res : Nat → Option B)
    (out : List B) (sF : MWState B) (s : MWState B)
    (hrun : MWRun K qd res (mkInit B K qd) out sF)
    (hdisp : s.sent < K) :
    sF.sent ≤ sF.recv + (qd + 1) ∧
      (mkInit B K qd).sent ≤ qd ∧
      (topupF K qd s).sent ≤ s.sent + (qd + 1 + s.recv - s.sent) ∧
      (queueNextF K s).sent = s.sent + 1 := by
  have hrun2 : MWRun K qd res ⟨min qd K, 0, []⟩ out sF := by
    rw [← mkInit_eq]
    exact hrun
  have hinv0 : MWInv K qd res (⟨min qd K, 0, []⟩ : MWState B) := by
    rw [← mkInit_eq]
    exact mkInit_inv B _ _ _
  obtain ⟨hinv, _, _⟩ := mwRun_spec hrun2 hinv0
  refine ⟨?_, ?_, ?_, ?_⟩
  · have := hinv.inflight
    omega
  · rw [mkInit_eq]
    show min qd K ≤ qd
    omega
  · exact iterate_queueNextF_sent_le K _ s
  · rw [queueNextF]
    rw [if_pos hdisp]

/-- C4.  Drained-empty invariant: whenever the multi-worker iterator signals
end-of-stream (after a top-up, `_recv_idx = _sent_idx`, so `__next__`
raises `StopIteration`), the shared reorder buffer is empty — under the
`MWRun` model, in which every dispatched ticket is delivered to the buffer
exactly once and removed exactly once, the assertion
`"result queue should be empty by now"` can never fail. -/
theorem mw_stop_buffer_empty {B : Type} (K qd : Nat) (res : Nat → Option B)
    (out : List B) (sF : MWState B)
    (hrun : MWRun K qd res (mkInit B K qd) out sF)
    (hstop : stopCond K qd sF) :
    sF.buffer = [] := by
  have hrun2 : MWRun K qd res ⟨min qd K, 0, []⟩ out sF := by
    rw [← mkInit_eq]
    exact hrun
  have hinv0 : MWInv K qd res (⟨min qd K, 0, []⟩ : MWState B) := by
    rw [← mkInit_eq]
    exact mkInit_inv B _ _ _
  obtain ⟨hinv, _, _⟩ := mwRun_spec hrun2 hinv0
  have hstop2 : sF.recv = min (sF.sent + (qd + 1 + sF.recv - sF.sent)) K := by
    have := hstop
    rw [stopCond, topupF_eq _ _ sF hinv.sent_le] at this
    exact this
  have hsr : sF.sent = sF.recv := by
    have h1 := hinv.recv_le
    have h2 := hinv.sent_le
    omega
  rw [List.eq_nil_iff_forall_not_mem]
  intro p hp
  have hlo := hinv.buf_lo p hp
  have hhi := hinv.buf_hi p hp
  omega

/-- A concrete transform chain: no mixup, batch seeding required, identity
transforms. -/
def demoCompose : Compose := ⟨false, true, id, fun a _ => a⟩

/-- A concrete indexable dataset of length 4. -/
def demoDataset : Dataset :=
  ⟨Mode.indexable, 4, fun i => ⟨i, 10 + i, none, none⟩, false,
    fun i => ⟨i, 10 + i, none, none⟩, fun f => 100 + f,
    fun k => ⟨k, k, none, none⟩⟩

/-- A concrete loader: 3 index groups, queue depth 2, rank 0, batchify is the
identity on the sample list, no callback. -/
def demoModel : LoaderModel (List Sample) :=
  ⟨demoDataset, demoCompose, [[0, 1], [2], [3]], id, none, 0, 2, fun _ _ => 0⟩

def demoB0 : List Sample := [⟨0, 10, none, some 1⟩, ⟨1, 11, none, some 1⟩]

def demoB1 : List Sample := [⟨2, 12, none, some 2⟩]

def demoB2 : List Sample := [⟨3, 13, none, some 3⟩]

/-- A concrete out-of-order execution of the multi-worker iterator on
`demoModel`: ticket 1 completes before ticket 0, yet the consumer receives
the batches in sequence order. -/
theorem demoRun : MWRun 3 2 (mwTicketResult demoModel)
    (mkInit (List Sample) 3 2) [demoB0, demoB1, demoB2] ⟨3, 3, []⟩ := by
  have h0 : mkInit (List Sample) 3 2 = ⟨2, 0, []⟩ := by
    rw [mkInit_eq]
    rfl
  rw [h0]
  refine MWRun.deliver ⟨2, 0, []⟩ 1 demoB1 [demoB0, demoB1, demoB2] ⟨3, 3, []⟩
    (by decide) (by decide) (by decide) (by decide) ?_
  refine MWRun.deliver ⟨2, 0, [(1, demoB1)]⟩ 0 demoB0
    [demoB0, demoB1, demoB2] ⟨3, 3, []⟩
    (by decide) (by decide) (by decide) (by decide) ?_
  refine MWRun.consume ⟨2, 0, [(0, demoB0), (1, demoB1)]⟩ demoB0
    [demoB1, demoB2] ⟨3, 3, []⟩ (by decide) ?_
  show MWRun 3 2 (mwTicketResult demoModel) ⟨2, 1, [(1, demoB1)]⟩
    [demoB1, demoB2] ⟨3, 3, []⟩
  refine MWRun.topup ⟨2, 1, [(1, demoB1)]⟩ [demoB1, demoB2] ⟨3, 3, []⟩ ?_
  show MWRun 3 2 (mwTicketResult demoModel) ⟨3, 1, [(1, demoB1)]⟩
    [demoB1, demoB2] ⟨3, 3, []⟩
  refine MWRun.consume ⟨3, 1, [(1, demoB1)]⟩ demoB1 [demoB2] ⟨3, 3, []⟩
    (by decide) ?_
  show MWRun 3 2 (mwTicketResult demoModel) ⟨3, 2, []⟩ [demoB2] ⟨3, 3, []⟩
  refine MWRun.deliver ⟨3, 2, []⟩ 2 demoB2 [demoB2] ⟨3, 3, []⟩
    (by decide) (by decide) (by decide) (by decide) ?_
  refine MWRun.consume ⟨3, 2, [(2, demoB2)]⟩ demoB2 [] ⟨3, 3, []⟩
    (by decide) ?_
  show MWRun 3 2 (mwTicketResult demoModel) ⟨3, 3, []⟩ [] ⟨3, 3, []⟩
  exact MWRun.done ⟨3, 3, []⟩

/-- Witness for C1 at `demoModel` and the out-of-order run `demoRun`. -/
theorem mw_iter_refines_sw_iter_witness :
    swOutputs demoModel = some [demoB0, demoB1, demoB2] ∧
      ([demoB0, demoB1, demoB2] : List (List Sample)).length
        = demoModel.sampler.length :=
  mw_iter_refines_sw_iter demoModel [demoB0, demoB1, demoB2] ⟨3, 3, []⟩
    rfl demoRun rfl

/-- Witness for C2 at `demoModel` and the run `demoRun`. -/
theorem mw_inflight_bounded_witness :
    (⟨3, 3, []⟩ : MWState (List Sample)).sent
        ≤ (⟨3, 3, []⟩ : MWState (List Sample)).recv + (2 + 1) ∧
      (mkInit (List Sample) 3 2).sent ≤ 2 ∧
      (topupF 3 2 (⟨1, 0, []⟩ : MWState (List Sample))).sent
        ≤ 1 + (2 + 1 + 0 - 1) ∧
      (queueNextF 3 (⟨1, 0, []⟩ : MWState (List Sample))).sent = 1 + 1 :=
  mw_inflight_bounded 3 2 (mwTicketResult demoModel)
    [demoB0, demoB1, demoB2] ⟨3, 3, []⟩ ⟨1, 0, []⟩ demoRun (by decide)

/-- Witness for C4 at `demoModel` and the run `demoRun`. -/
theorem mw_stop_buffer_empty_witness :
    (⟨3, 3, []⟩ : MWState (List Sample)).buffer = [] :=
  mw_stop_buffer_empty 3 2 (mwTicketResult demoModel)
    [demoB0, demoB1, demoB2] ⟨3, 3, []⟩ demoRun rfl

/-- C3.  Batch-seed discipline: when the chain requires seeding, the seed a
ticket carries is `(sequence_id + 1) * (rank + 1)` in both iterators (hence
identical for identical `(rank, sequence_id)` across runs and across the two
iterators), distinct sequence ids give distinct seeds at a fixed rank, and
every sample fetched for the same ticket has that seed value attached;
when the chain does not require seeding the seed is `None`. -/
theorem batch_seed_spec (tr : Compose) (ds : Dataset) (rank n m : Nat)
    (ids : List Nat) :
    mwBatchSeedF tr rank n = swBatchSeedF tr rank n ∧
    (tr.need_seeding = true →
      swBatchSeedF tr rank n = some ((n + 1) * (rank + 1)) ∧
      mwBatchSeedF tr rank n = some ((n + 1) * (rank + 1)) ∧
      (n ≠ m → mwBatchSeedF tr rank n ≠ mwBatchSeedF tr rank m) ∧
      (∀ i ∈ ids, (fetchSample ds i (mwBatchSeedF tr rank n)).batchSeed
        = some ((n + 1) * (rank + 1)))) ∧
    (tr.need_seeding = false →
      swBatchSeedF tr rank n = none ∧ mwBatchSeedF tr rank n = none) := by
  refine ⟨rfl, ?_, ?_⟩
  · intro hseed
    refine ⟨?_, ?_, ?_, ?_⟩
    · rw [swBatchSeedF, if_pos hseed]
    · rw [mwBatchSeedF, if_pos hseed]
    · intro hnm
      rw [mwBatchSeedF, if_pos hseed, mwBatchSeedF, if_pos hseed]
      intro hcontra
      have h2 : (n + 1) * (rank + 1) = (m + 1) * (rank + 1) :=
        Option.some.inj hcontra
      have h3 : n + 1 = m + 1 :=
        Nat.eq_of_mul_eq_mul_right (Nat.succ_pos rank) h2
      omega
    · intro i _
      rw [mwBatchSeedF, if_pos hseed, fetchSample]
  · intro hseed
    constructor
    · rw [swBatchSeedF, hseed]
      rfl
    · rw [mwBatchSeedF, hseed]
      rfl

/-- Witness for C3 at a concrete seeding chain (`demoCompose`), a concrete
non-seeding chain, rank 3, sequence ids 4 and 5. -/
theorem batch_seed_spec_witness :
    (mwBatchSeedF demoCompose 3 4 = swBatchSeedF demoCompose 3 4 ∧
      (demoCompose.need_seeding = true →
        swBatchSeedF demoCompose 3 4 = some ((4 + 1) * (3 + 1)) ∧
        mwBatchSeedF demoCompose 3 4 = some ((4 + 1) * (3 + 1)) ∧
        ((4 : Nat) ≠ 5 →
          mwBatchSeedF demoCompose 3 4 ≠ mwBatchSeedF demoCompose 3 5) ∧
        (∀ i ∈ [0, 1],
          (fetchSample demoDataset i (mwBatchSeedF demoCompose 3 4)).batchSeed
            = some ((4 + 1) * (3 + 1)))) ∧
      (demoCompose.need_seeding = false →
        swBatchSeedF demoCompose 3 4 = none ∧
          mwBatchSeedF demoCompose 3 4 = none)) ∧
    demoCompose.need_seeding = true :=
  ⟨batch_seed_spec demoCompose demoDataset 3 4 5 [0, 1], by decide⟩

theorem drop_range_eq (m n : Nat) (h : m ≤ n) :
    (List.range n).drop m = List.range' m (n - m) := by
  have hsplit : List.range n = List.range' 0 m ++ List.range' m (n - m) := by
    rw [List.range_eq_range', List.range'_eq_append_iff]
    exact ⟨m, h, rfl, by simp⟩
  rw [hsplit]
  have hlen : (List.range' 0 m).length = m := by simp
  exact List.drop_left' hlen

theorem npDelete_range_spec (n idx : Nat) (h : idx < n) :
    ∃ cands, npDelete (npArange n) idx = some cands ∧
      cands.length = n - 1 ∧
      (∀ j ∈ cands, j < n ∧ j ≠ idx) := by
  refine ⟨(List.range n).take idx ++ (List.range n).drop (idx + 1), ?_, ?_, ?_⟩
  · rw [npDelete, npArange, if_pos (by simpa using h)]
  · rw [List.take_range, drop_range_eq (idx + 1) n h]
    simp only [List.length_append, List.length_range, List.length_range']
    omega
  · intro j hj
    rcases List.mem_append.mp hj with hj | hj
    · rw [List.take_range] at hj
      have := List.mem_range.mp hj
      omega
    · rw [drop_range_eq (idx + 1) n h] at hj
      have := List.mem_range'_1.mp hj
      omega

/-- C9.  Precondition of the paired-sampling draw: for a valid primary index
`idx < n`, the secondary-index draw of `_apply_transform` succeeds and
returns an index in `[0, n)` distinct from `idx` exactly when `n ≥ 2`; for
`n = 1` the candidate set is empty and `np.random.choice` raises. -/
theorem secondary_draw_spec (n idx r : Nat) (hidx : idx < n) :
    ((∃ j, secondaryDraw n idx r = some j ∧ j < n ∧ j ≠ idx) ↔ 2 ≤ n) ∧
    (n = 1 → npDelete (npArange n) idx = some [] ∧
      secondaryDraw n idx r = none) := by
  obtain ⟨cands, hdel, hlen, hmem⟩ := npDelete_range_spec n idx hidx
  constructor
  · constructor
    · rintro ⟨j, hj, hjn, hjne⟩
      by_contra hn
      have hn1 : n = 1 := by omega
      subst hn1
      have hc : cands = [] := List.length_eq_zero.mp (by omega)
      rw [secondaryDraw, hdel, hc] at hj
      cases hj
    · intro hn
      have hpos : 0 < cands.length := by omega
      have hmod : r % cands.length < cands.length := Nat.mod_lt r hpos
      have hget : ∃ j, cands.get? (r % cands.length) = some j :=
        ⟨cands.get ⟨r % cands.length, hmod⟩, List.get?_eq_get hmod⟩
      obtain ⟨j, hj⟩ := hget
      have hjc : j ∈ cands := List.get?_mem hj
      refine ⟨j, ?_, (hmem j hjc).1, (hmem j hjc).2⟩
      rw [secondaryDraw, hdel]
      exact hj
  · intro hn1
    subst hn1
    have hidx0 : idx = 0 := by omega
    subst hidx0
    have hc : cands = [] := List.length_eq_zero.mp (by omega)
    rw [hc] at hdel
    refine ⟨hdel, ?_⟩
    rw [secondaryDraw, hdel]
    rfl

/-- Witness for C9 at `n = 3`, `idx = 1`, draw `r = 5`. -/
theorem secondary_draw_spec_witness :
    ((∃ j, secondaryDraw 3 1 5 = some j ∧ j < 3 ∧ j ≠ 1) ↔ 2 ≤ 3) ∧
      ((3 : Nat) = 1 → npDelete (npArange 3) 1 = some [] ∧
        secondaryDraw 3 1 5 = none) :=
  secondary_draw_spec 3 1 5 (by decide)

/-- A transform chain with a mixup transform; the chain returns the
secondary sample so that evaluation exposes it. -/
def mixupCompose : Compose := ⟨true, false, id, fun _ s2 => s2⟩

/-- An indexable dataset of length 2 exposing cached raw samples: sample `i`
has file id `10 + i` and image content `100 + i`; `_read_image` maps file
`f` to content `1000 + f`. -/
def mixupDataset : Dataset :=
  ⟨Mode.indexable, 2, fun i => ⟨i, 10 + i, some (100 + i), none⟩, true,
    fun i => ⟨i, 10 + i, some (100 + i), none⟩, fun f => 1000 + f,
    fun _ => ⟨0, 0, none, none⟩⟩

/-- C5 (divergence exhibit).  In the cached-raw-form path of
`_apply_transform` (dataloader.py line 95 reads
`dataset._read_image(sample['file'])`, with `sample` the PRIMARY sample),
the secondary sample handed to the transform chain carries the image loaded
from the primary sample's file (`readImage 10 = 1010`), not the dataset's
sample at the secondary index (whose image is `101`, or `1011` had its own
file been read).  With primary index 0 the draw picks secondary index 1,
and the pair's secondary sample is `samples 1` with image `1010`. -/
theorem mixup_cached_secondary_uses_primary_file :
    applyTransformF mixupDataset mixupCompose 0 none 0 0
        = some ⟨1, 11, some 1010, none⟩ ∧
      mixupDataset.readImage ((mixupDataset.get 0).file) = 1010 ∧
      (mixupDataset.samples 1).image = some 101 ∧
      (mixupDataset.get 1).image = some 101 ∧
      (1010 : Nat) ≠ 101 := by decide

/-- `DataLoader.__len__` (dataloader.py lines 265-268): the sampler length
for an indexable-mode dataset, a raised `TypeError` (modelled `none`)
otherwise. -/
def loaderLenF (ds : Dataset) (sampler : List (List Nat)) : Option Nat :=
  if ds.mode = Mode.indexable then some sampler.length else none

/-- C8.  `len(loader)` is the sampler's length (the number of index groups)
exactly for indexable-mode datasets; for any other mode the query raises a
`TypeError` instead of returning a value. -/
theorem loader_len_spec (ds : Dataset) (sampler : List (List Nat)) :
    (ds.mode = Mode.indexable → loaderLenF ds sampler = some sampler.length) ∧
    (ds.mode ≠ Mode.indexable → loaderLenF ds sampler = none) := by
  constructor
  · intro h
    rw [loaderLenF, if_pos h]
  · intro h
    rw [loaderLenF, if_neg h]

/-- Witness for C8: the indexable `demoDataset` with the 3-group sampler,
and an iterable variant of it. -/
theorem loader_len_spec_witness :
    ((demoDataset.mode = Mode.indexable →
        loaderLenF demoDataset [[0, 1], [2], [3]] = some 3) ∧
      (demoDataset.mode ≠ Mode.indexable →
        loaderLenF demoDataset [[0, 1], [2], [3]] = none)) ∧
    (({ demoDataset with mode := Mode.iterable }.mode = Mode.indexable →
        loaderLenF { demoDataset with mode := Mode.iterable } [[0, 1]]
          = some 1) ∧
      ({ demoDataset with mode := Mode.iterable }.mode ≠ Mode.indexable →
        loaderLenF { demoDataset with mode := Mode.iterable } [[0, 1]]
          = none)) :=
  ⟨loader_len_spec demoDataset [[0, 1], [2], [3]],
    loader_len_spec { demoDataset with mode := Mode.iterable } [[0, 1]]⟩

/-- A nested sequence value as handled by `ExtractFields._flatten`
(`__init__.py` lines 146-159): a leaf payload or a sequence of nested
values. -/
inductive Nested (α : Type) where
  | leaf (a : α)
  | node (children : List (Nested α))

/-- `t` is a uniformly nested value of depth `l`: leaves at depth 0, at
positive depth a sequence whose elements all have the next depth down. -/
def Nested.depthIs : Nat → Nested α → Bool
  | 0, .leaf _ => true
  | 0, .node _ => false
  | _ + 1, .leaf _ => false
  | l + 1, .node cs => cs.all (Nested.depthIs l)

/-- Level-wise concatenation of two per-level length tables: the appends
performed by sibling `_recurse` calls writing into the shared, preallocated
`seq_length` lists. -/
def zipJoin : List (List Nat) → List (List Nat) → List (List Nat)
  | [], ys => ys
  | x :: xs, [] => x :: xs
  | x :: xs, y :: ys => (x ++ y) :: zipJoin xs ys

/-- Level-wise concatenation over a list of children's length tables, onto
the `lod_level` preallocated empty lists (`seq_length = [[] for _ in
range(lod_level)]`, `__init__.py` line 148). -/
def lvlJoin (l : Nat) : List (List (List Nat)) → List (List Nat)
  | [] => List.replicate l []
  | s :: rest => zipJoin s (lvlJoin l rest)

/-- `_recurse(data, result, level)` (`__init__.py` lines 150-156) as a pure
function of `(level, data)`: at level 0 the datum joins the flat list; at
level `l + 1` a non-sequence raises (`len(data)` on a leaf — `none`), and a
sequence records its length at the current level and recurses into each
element one level down, children appending in traversal order. -/
def recurseF : Nat → Nested α → Option (List (Nested α) × List (List Nat))
  | 0, d => some ([d], [])
  | _ + 1, .leaf _ => none
  | l + 1, .node cs =>
    (mapOpt (recurseF l) cs).map (fun subs =>
      ((subs.map Prod.fst).flatten,
        [cs.length] :: lvlJoin l (subs.map Prod.snd)))

/-- `ExtractFields._flatten(arr, lod_level)` (`__init__.py` lines 146-159):
returns the flat list and the per-level length lists, outermost first. -/
def flattenF (arr : Nested α) (lodLevel : Nat) :
    Option (List (Nested α) × List (List Nat)) :=
  recurseF lodLevel arr

/-- The ragged-field path of `ExtractFields.__call__` for a non-auxiliary
spec of nesting depth `lod_level > 0` (`__init__.py` lines 117 and 132-133):
`flat, seq_length = self._flatten(arr, lod_level + 1)` on the per-sample
list `arr`, then `seq_length = seq_length[1:]` — the feed record keeps the
length lists with the outermost one dropped. -/
def extractRagged (samples : List (Nested α)) (lodLevel : Nat) :
    Option (List (Nested α) × List (List Nat)) :=
  (flattenF (Nested.node samples) (lodLevel + 1)).map
    (fun p => (p.1, p.2.drop 1))

/-- Split a list into consecutive chunks of the given sizes; fails unless
the sizes exactly exhaust the list. -/
def chunkBy : List Nat → List β → Option (List (List β))
  | [], [] => some []
  | [], _ :: _ => none
  | c :: cs, xs =>
    if c ≤ xs.length then
      (chunkBy cs (xs.drop c)).map (fun r => xs.take c :: r)
    else none

/-- Reassemble nested values from a flat list and per-level length lists
(outermost first): the reconstruction the spec asserts the recorded
`seq_length` tables enable. -/
def unflatten (flat : List (Nested α)) :
    List (List Nat) → Option (List (Nested α))
  | [] => some flat
  | l :: rest =>
    (unflatten flat rest).bind (fun sub =>
      (chunkBy l sub).map (fun chunks => chunks.map Nested.node))

theorem mapOpt_mem (f : α → Option β) :
    ∀ (ts : List α) (rs : List β), mapOpt f ts = some rs →
      ∀ b ∈ rs, ∃ a ∈ ts, f a = some b := by
  intro ts
  induction ts with
  | nil =>
    intro rs h b hb
    rw [mapOpt] at h
    cases h
    cases hb
  | cons a ts ih =>
    intro rs h b hb
    rw [mapOpt] at h
    cases hfa : f a with
    | none => rw [hfa] at h; cases h
    | some b0 =>
      rw [hfa] at h
      cases hrec : mapOpt f ts with
      | none => rw [hrec] at h; cases h
      | some bs =>
        rw [hrec] at h
        cases h
        rcases List.mem_cons.mp hb with hb | hb
        · exact ⟨a, List.mem_cons_self a ts, by rw [hfa, hb]⟩
        · obtain ⟨a2, ha2, hfa2⟩ := ih bs hrec b hb
          exact ⟨a2, List.mem_cons_of_mem a ha2, hfa2⟩

theorem mapOpt_some_of_forall (f : α → Option β) :
    ∀ (ts : List α), (∀ a ∈ ts, ∃ b, f a = some b) →
      ∃ rs, mapOpt f ts = some rs := by
  intro ts
  induction ts with
  | nil => intro _; exact ⟨[], rfl⟩
  | cons a ts ih =>
    intro h
    obtain ⟨b, hb⟩ := h a (List.mem_cons_self a ts)
    obtain ⟨rs, hrs⟩ := ih (fun x hx => h x (List.mem_cons_of_mem a hx))
    exact ⟨b :: rs, by rw [mapOpt, hb, hrs]; rfl⟩

theorem zipJoin_length :
    ∀ (a b : List (List Nat)), a.length = b.length →
      (zipJoin a b).length = a.length := by
  intro a
  induction a with
  | nil =>
    intro b h
    rw [zipJoin]
    omega
  | cons x xs ih =>
    intro b h
    cases b with
    | nil => simp at h
    | cons y ys =>
      rw [zipJoin]
      simp only [List.length_cons] at h ⊢
      rw [ih ys (by omega)]

theorem lvlJoin_length (l : Nat) :
    ∀ (xs : List (List (List Nat))), (∀ s ∈ xs, s.length = l) →
      (lvlJoin l xs).length = l := by
  intro xs
  induction xs with
  | nil =>
    intro _
    rw [lvlJoin]
    exact List.length_replicate l []
  | cons s rest ih =>
    intro h
    rw [lvlJoin]
    have h1 : s.length = l := h s (List.mem_cons_self s rest)
    have h2 : (lvlJoin l rest).length = l :=
      ih (fun x hx => h x (List.mem_cons_of_mem s hx))
    rw [zipJoin_length s (lvlJoin l rest) (by omega), h1]

theorem recurseF_snd_length :
    ∀ (l : Nat) (t : Nested α) (p : List (Nested α) × List (List Nat)),
      recurseF l t = some p → p.2.length = l := by
  intro l
  induction l with
  | zero =>
    intro t p h
    rw [recurseF] at h
    cases h
    rfl
  | succ l ih =>
    intro t p h
    cases t with
    | leaf a => rw [recurseF] at h; cases h
    | node cs =>
      rw [recurseF] at h
      cases hsub : mapOpt (recurseF l) cs with
      | none => rw [hsub] at h; cases h
      | some subs =>
        rw [hsub] at h
        cases h
        simp only [List.length_cons]
        rw [lvlJoin_length l (subs.map Prod.snd)]
        intro s hs
        rcases List.mem_map.mp hs with ⟨p2, hp2, hpe⟩
        obtain ⟨a, _, ha⟩ := mapOpt_mem (recurseF l) cs subs hsub p2 hp2
        rw [← hpe]
        exact ih a p2 ha

theorem chunkBy_append :
    ∀ (cs1 : List Nat) (xs1 : List β) (r1 : List (List β))
      (cs2 : List Nat) (xs2 : List β) (r2 : List (List β)),
      chunkBy cs1 xs1 = some r1 → chunkBy cs2 xs2 = some r2 →
      chunkBy (cs1 ++ cs2) (xs1 ++ xs2) = some (r1 ++ r2) := by
  intro cs1
  induction cs1 with
  | nil =>
    intro xs1 r1 cs2 xs2 r2 h1 h2
    cases xs1 with
    | nil =>
      rw [chunkBy] at h1
      cases h1
      exact h2
    | cons x xs => rw [chunkBy] at h1; cases h1
  | cons c cs ih =>
    intro xs1 r1 cs2 xs2 r2 h1 h2
    rw [chunkBy] at h1
    by_cases hc : c ≤ xs1.length
    · rw [if_pos hc] at h1
      cases hrec : chunkBy cs (xs1.drop c) with
      | none => rw [hrec] at h1; cases h1
      | some r0 =>
        rw [hrec] at h1
        cases h1
        have h3 := ih (xs1.drop c) r0 cs2 xs2 r2 hrec h2
        show chunkBy (c :: (cs ++ cs2)) (xs1 ++ xs2) = _
        rw [chunkBy,
          if_pos (by rw [List.length_append]; omega),
          List.drop_append_of_le_length hc, h3,
          List.take_append_of_le_length hc]
        rfl
    · rw [if_neg hc] at h1
      cases h1

theorem chunkBy_flatten :
    ∀ (xss : List (List β)),
      chunkBy (xss.map List.length) xss.flatten = some xss := by
  intro xss
  induction xss with
  | nil => rfl
  | cons xs xss ih =>
    show chunkBy (xs.length :: xss.map List.length) (xs ++ xss.flatten) = _
    rw [chunkBy, if_pos (by rw [List.length_append]; omega),
      List.drop_left, ih, List.take_left]
    rfl

theorem unflatten_nil_replicate (l : Nat) :
    unflatten ([] : List (Nested α)) (List.replicate l []) = some [] := by
  induction l with
  | zero => rfl
  | succ l ih =>
    show unflatten [] ([] :: List.replicate l []) = some []
    rw [unflatten, ih]
    rfl

theorem unflatten_zipJoin :
    ∀ (L1 L2 : List (List Nat)) (F1 F2 ts1 ts2 : List (Nested α)),
      L1.length = L2.length →
      unflatten F1 L1 = some ts1 → unflatten F2 L2 = some ts2 →
      unflatten (F1 ++ F2) (zipJoin L1 L2) = some (ts1 ++ ts2) := by
  intro L1
  induction L1 with
  | nil =>
    intro L2 F1 F2 ts1 ts2 hlen h1 h2
    cases L2 with
    | nil =>
      rw [unflatten] at h1 h2
      cases h1
      cases h2
      rfl
    | cons b L2 => simp at hlen
  | cons a L1 ih =>
    intro L2 F1 F2 ts1 ts2 hlen h1 h2
    cases L2 with
    | nil => simp at hlen
    | cons b L2 =>
      rw [unflatten] at h1 h2
      cases hs1 : unflatten F1 L1 with
      | none => rw [hs1] at h1; cases h1
      | some sub1 =>
        rw [hs1] at h1
        simp only [Option.some_bind] at h1
        cases hc1 : chunkBy a sub1 with
        | none => rw [hc1] at h1; cases h1
        | some ch1 =>
          rw [hc1] at h1
          simp only [Option.map_some'] at h1
          cases h1
          cases hs2 : unflatten F2 L2 with
          | none => rw [hs2] at h2; cases h2
          | some sub2 =>
            rw [hs2] at h2
            simp only [Option.some_bind] at h2
            cases hc2 : chunkBy b sub2 with
            | none => rw [hc2] at h2; cases h2
            | some ch2 =>
              rw [hc2] at h2
              simp only [Option.map_some'] at h2
              cases h2
              show unflatten (F1 ++ F2) ((a ++ b) :: zipJoin L1 L2)
                = some (ch1.map Nested.node ++ ch2.map Nested.node)
              rw [unflatten,
                ih L2 F1 F2 sub1 sub2 (by simpa using hlen) hs1 hs2]
              show (chunkBy (a ++ b) (sub1 ++ sub2)).map
                  (fun chunks => chunks.map Nested.node)
                = some (ch1.map Nested.node ++ ch2.map Nested.node)
              rw [chunkBy_append a sub1 ch1 b sub2 ch2 hc1 hc2]
              show some ((ch1 ++ ch2).map Nested.node) = _
              rw [List.map_append]

theorem recurseF_snd_lengths (l : Nat) (cs : List (Nested α))
    (subs : List (List (Nested α) × List (List Nat)))
    (h : mapOpt (recurseF l) cs = some subs) :
    ∀ s ∈ subs.map Prod.snd, s.length = l := by
  intro s hs
  rcases List.mem_map.mp hs with ⟨p, hp, hpe⟩
  obtain ⟨a, _, ha⟩ := mapOpt_mem (recurseF l) cs subs h p hp
  rw [← hpe]
  exact recurseF_snd_length l a p ha

/-- Round-trip: reassembling the flat list produced by `_recurse` with the
recorded per-level length lists reproduces the original nested value. -/
theorem unflatten_recurseF :
    ∀ (l : Nat) (t : Nested α) (fl : List (Nested α)) (ls : List (List Nat)),
      recurseF l t = some (fl, ls) → unflatten fl ls = some [t] := by
  intro l
  induction l with
  | zero =>
    intro t fl ls h
    rw [recurseF] at h
    cases h
    rfl
  | succ l ih =>
    have listR : ∀ (cs : List (Nested α))
        (subs : List (List (Nested α) × List (List Nat))),
        mapOpt (recurseF l) cs = some subs →
        unflatten ((subs.map Prod.fst).flatten)
          (lvlJoin l (subs.map Prod.snd)) = some cs := by
      intro cs
      induction cs with
      | nil =>
        intro subs h
        rw [mapOpt] at h
        cases h
        show unflatten [] (lvlJoin l []) = some []
        rw [lvlJoin]
        exact unflatten_nil_replicate l
      | cons c cs ihc =>
        intro subs h
        rw [mapOpt] at h
        cases hp : recurseF l c with
        | none => rw [hp] at h; cases h
        | some p =>
          rw [hp] at h
          cases hrest : mapOpt (recurseF l) cs with
          | none => rw [hrest] at h; cases h
          | some subs2 =>
            rw [hrest] at h
            simp only [Option.some_bind, Option.map_some'] at h
            cases h
            have h1 : unflatten p.1 p.2 = some [c] := ih c p.1 p.2 hp
            have h2 := ihc subs2 hrest
            have hL1 : p.2.length = l := recurseF_snd_length l c p hp
            have hL2 : (lvlJoin l (subs2.map Prod.snd)).length = l :=
              lvlJoin_length l _ (recurseF_snd_lengths l cs subs2 hrest)
            have h3 := unflatten_zipJoin p.2 (lvlJoin l (subs2.map Prod.snd))
              p.1 ((subs2.map Prod.fst).flatten) [c] cs (by omega) h1 h2
            show unflatten (p.1 ++ (subs2.map Prod.fst).flatten)
              (zipJoin p.2 (lvlJoin l (subs2.map Prod.snd))) = some (c :: cs)
            simpa using h3
    intro t fl ls h
    cases t with
    | leaf a => rw [recurseF] at h; cases h
    | node cs =>
      rw [recurseF] at h
      cases hsub : mapOpt (recurseF l) cs with
      | none => rw [hsub] at h; cases h
      | some subs =>
        rw [hsub] at h
        simp only [Option.map_some'] at h
        cases h
        have hchunk : chunkBy [cs.length] cs = some [cs] := by
          rw [chunkBy, if_pos (Nat.le_refl _), List.drop_length,
            List.take_length]
          rfl
        show unflatten ((subs.map Prod.fst).flatten)
          ([cs.length] :: lvlJoin l (subs.map Prod.snd))
          = some [Nested.node cs]
        rw [unflatten, listR cs subs hsub, Option.some_bind, hchunk]
        rfl

theorem recurseF_some_of_depth :
    ∀ (l : Nat) (t : Nested α), Nested.depthIs l t = true →
      ∃ p, recurseF l t = some p := by
  intro l
  induction l with
  | zero =>
    intro t _
    exact ⟨([t], []), rfl⟩
  | succ l ih =>
    intro t h
    cases t with
    | leaf a => rw [Nested.depthIs] at h; cases h
    | node cs =>
      rw [Nested.depthIs, List.all_eq_true] at h
      obtain ⟨subs, hsubs⟩ :=
        mapOpt_some_of_forall (recurseF l) cs (fun c hc => ih c (h c hc))
      refine ⟨((subs.map Prod.fst).flatten,
        [cs.length] :: lvlJoin l (subs.map Prod.snd)), ?_⟩
      rw [recurseF, hsubs]
      rfl

theorem recurseF_flat_leaves :
    ∀ (l : Nat) (t : Nested α) (fl : List (Nested α)) (ls : List (List Nat)),
      Nested.depthIs l t = true → recurseF l t = some (fl, ls) →
      ∀ x ∈ fl, ∃ a, x = Nested.leaf a := by
  intro l
  induction l with
  | zero =>
    intro t fl ls hd h x hx
    cases t with
    | leaf a =>
      rw [recurseF] at h
      cases h
      rcases List.mem_singleton.mp hx with hx2
      exact ⟨a, hx2⟩
    | node cs => rw [Nested.depthIs] at hd; cases hd
  | succ l ih =>
    intro t fl ls hd h x hx
    cases t with
    | leaf a => rw [recurseF] at h; cases h
    | node cs =>
      rw [Nested.depthIs, List.all_eq_true] at hd
      rw [recurseF] at h
      cases hsub : mapOpt (recurseF l) cs with
      | none => rw [hsub] at h; cases h
      | some subs =>
        rw [hsub] at h
        simp only [Option.map_some'] at h
        cases h
        rcases List.mem_flatten.mp hx with ⟨sub, hsubm, hxs⟩
        rcases List.mem_map.mp hsubm with ⟨p, hpm, hpe⟩
        obtain ⟨c, hcm, hcp⟩ := mapOpt_mem (recurseF l) cs subs hsub p hpm
        exact ih c p.1 p.2 (hd c hcm) hcp x (by rw [hpe]; exact hxs)

/-- C7.  Extraction round-trip: for a non-auxiliary output spec of nesting
depth `L > 0` and a batch of samples each uniformly nested to depth `L`
(so the per-sample list `arr` has uniform depth `L + 1`), `_flatten(arr,
L + 1)` produces a flat list of leaf values together with `L + 1` length
lists (outermost first) such that reassembling the flat list with those
lists reproduces the original nested structure exactly, and the feed record
stores the length lists with the outermost one dropped. -/
theorem extract_roundtrip {α : Type} (L : Nat) (hL : 0 < L)
    (samples : List (Nested α))
    (hdep : ∀ s ∈ samples, Nested.depthIs L s = true) :
    ∃ fl ls, flattenF (Nested.node samples) (L + 1) = some (fl, ls) ∧
      ls.length = L + 1 ∧
      (∀ x ∈ fl, ∃ a, x = Nested.leaf a) ∧
      unflatten fl ls = some [Nested.node samples] ∧
      extractRagged samples L = some (fl, ls.drop 1) := by
  have hdepN : Nested.depthIs (L + 1) (Nested.node samples) = true := by
    rw [Nested.depthIs, List.all_eq_true]
    intro x hx
    exact hdep x hx
  obtain ⟨p, hp⟩ := recurseF_some_of_depth (L + 1) (Nested.node samples) hdepN
  refine ⟨p.1, p.2, hp, ?_, ?_, ?_, ?_⟩
  · exact recurseF_snd_length (L + 1) _ p hp
  · exact recurseF_flat_leaves (L + 1) _ p.1 p.2 hdepN hp
  · exact unflatten_recurseF (L + 1) _ p.1 p.2 hp
  · rw [extractRagged, flattenF, hp]
    rfl

/-- Witness for C7 at `L = 1` with the batch
`[[leaf 1, leaf 2], [leaf 3]]`. -/
theorem extract_roundtrip_witness :
    ∃ fl ls,
      flattenF (Nested.node [Nested.node [Nested.leaf 1, Nested.leaf 2],
          Nested.node [Nested.leaf (3 : Nat)]]) (1 + 1) = some (fl, ls) ∧
        ls.length = 1 + 1 ∧
        (∀ x ∈ fl, ∃ a, x = Nested.leaf a) ∧
        unflatten fl ls
          = some [Nested.node [Nested.node [Nested.leaf 1, Nested.leaf 2],
              Nested.node [Nested.leaf 3]]] ∧
        extractRagged [Nested.node [Nested.leaf 1, Nested.leaf 2],
            Nested.node [Nested.leaf 3]] 1 = some (fl, ls.drop 1) :=
  extract_roundtrip 1 (by decide)
    [Nested.node [Nested.leaf 1, Nested.leaf 2], Nested.node [Nested.leaf 3]]
    (by decide)

/-- An array payload, modelled as its list of leading-axis rows (opaque row
ids); `np.concatenate` along the leading axis is list append. -/
abbrev NDArr := List Nat

/-- One entry of the extractor's feed dict: `(ndarray, seq_length-or-None)`
(`__init__.py` line 142). -/
structure FeedVal where
  data : NDArr
  seqLen : Option (List (List Nat))
deriving DecidableEq

/-- A feed dict: insertion-ordered mapping from field name to feed value. -/
abbrev FeedDict := List (String × FeedVal)

/-- An extra dict: auxiliary field name to its accumulated list value. -/
abbrev ExtraDict := List (String × List Nat)

/-- A device lane target (`fluid` places). -/
inductive Place where
  | cpu
  | cuda (i : Nat)
  | cudaPinned
deriving DecidableEq

/-- A materialized tensor: payload, optional recursive sequence lengths, and
the place it was set on (`_to_tensor`, `__init__.py` lines 255-264). -/
structure LoDTensor where
  data : NDArr
  seqLen : Option (List (List Nat))
  place : Place
deriving DecidableEq

/-- `d[k]` on an insertion-ordered dict. -/
def lookupF (d : List (String × γ)) (k : String) : Option γ :=
  (d.find? (fun p => p.1 == k)).map (fun p => p.2)

/-- `DataLoaderBuilder._to_tensor(feed_dict, place)`: set every field's
ndarray on `place` and attach its sequence lengths when present. -/
def toTensor (fd : FeedDict) (place : Place) : List (String × LoDTensor) :=
  fd.map (fun p => (p.1, ⟨p.2.data, p.2.seqLen, place⟩))

/-- `DataLoaderBuilder._merge_seq_length(seq_lengths)` (`__init__.py` lines
266-273) as a value: `None` when the first lane's table is `None`; otherwise,
level by level (`for idx, v in enumerate(results)`), the first lane's level
list extended (`v += rest[idx]`) with the corresponding level list of every
later lane in lane order.  The outer `Option` is a raised Python error
(empty argument list, a `None` later lane, or a later lane missing the
level). -/
def mergeSeqLength (seqLengths : List (Option (List (List Nat)))) :
    Option (Option (List (List Nat))) :=
  match seqLengths with
  | [] => none
  | none :: _ => some none
  | some levels :: rest =>
    (mapOpt (fun iv : Nat × List Nat =>
        (mapOpt (fun r : Option (List (List Nat)) =>
            r.bind (fun rl => rl.get? iv.1)) rest).map
          (fun exts => iv.2 ++ exts.flatten)) levels.enum).map some

/-- `_merge_seq_length` with its heap effect made explicit: the returned
table is the first lane's `seq_length` object itself, mutated in place by
the `v += rest[idx]` extensions, so the store comes back with lane 0
replaced by the merged table (the same object the call returns) and every
later lane untouched. -/
def mergeSeqLengthStore (store : List (Option (List (List Nat)))) :
    Option (Option (List (List Nat)) × List (Option (List (List Nat)))) :=
  (mergeSeqLength store).map (fun r =>
    (r, match store, r with
        | _ :: tail, some merged => some merged :: tail
        | s, _ => s))

theorem mapOpt_get? (f : α → Option β) :
    ∀ (l : List α) (r : List β), mapOpt f l = some r →
      ∀ (i : Nat) (a : α), l.get? i = some a →
        ∃ b, f a = some b ∧ r.get? i = some b := by
  intro l
  induction l with
  | nil =>
    intro r h i a ha
    simp at ha
  | cons x l ih =>
    intro r h i a ha
    rw [mapOpt] at h
    cases hfx : f x with
    | none => rw [hfx] at h; cases h
    | some b0 =>
      rw [hfx] at h
      cases hrec : mapOpt f l with
      | none => rw [hrec] at h; cases h
      | some bs =>
        rw [hrec] at h
        simp only [Option.some_bind, Option.map_some'] at h
        cases h
        cases i with
        | zero =>
          rw [List.get?] at ha
          cases ha
          exact ⟨b0, hfx, rfl⟩
        | succ i =>
          rw [List.get?] at ha
          obtain ⟨b, hb1, hb2⟩ := ih bs hrec i a ha
          exact ⟨b, hb1, hb2⟩

/-- C10.  The nested-length merge is in-place on its first argument: the
call returns the first lane's (mutated) `seq_length` object — in the store
model, lane 0 now holds the returned table and the result aliases it — each
of its per-level lists extended with the corresponding level list of every
subsequent lane, the subsequent lanes' tables left unchanged; a `None`
first lane short-circuits to `None` with no mutation. -/
theorem merge_seq_length_inplace (first : List (List Nat))
    (rest : List (Option (List (List Nat)))) (r : List (List Nat))
    (h : mergeSeqLength (some first :: rest) = some (some r)) :
    mergeSeqLengthStore (some first :: rest)
        = some (some r, some r :: rest) ∧
      r.length = first.length ∧
      (∀ i (v : List Nat), first.get? i = some v →
        ∃ exts, mapOpt (fun o : Option (List (List Nat)) =>
            o.bind (fun rl => rl.get? i)) rest = some exts ∧
          r.get? i = some (v ++ exts.flatten)) ∧
      mergeSeqLength (none :: rest) = some none ∧
      mergeSeqLengthStore (none :: rest) = some (none, none :: rest) := by
  have hmap : mapOpt (fun iv : Nat × List Nat =>
      (mapOpt (fun o : Option (List (List Nat)) =>
          o.bind (fun rl => rl.get? iv.1)) rest).map
        (fun exts => iv.2 ++ exts.flatten)) first.enum = some r := by
    have h2 := h
    rw [mergeSeqLength] at h2
    cases hm : mapOpt (fun iv : Nat × List Nat =>
        (mapOpt (fun o : Option (List (List Nat)) =>
            o.bind (fun rl => rl.get? iv.1)) rest).map
          (fun exts => iv.2 ++ exts.flatten)) first.enum with
    | none => rw [hm] at h2; cases h2
    | some r2 =>
      rw [hm] at h2
      simp only [Option.map_some'] at h2
      cases h2
      rfl
  refine ⟨?_, ?_, ?_, ?_, ?_⟩
  · rw [mergeSeqLengthStore, h]
    rfl
  · have := mapOpt_length _ _ _ hmap
    simpa using this
  · intro i v hv
    have henum : first.enum.get? i = some (i, v) := by
      rw [List.get?_enum, hv]
      rfl
    obtain ⟨b, hb1, hb2⟩ := mapOpt_get? _ first.enum r hmap i (i, v) henum
    cases hexts : mapOpt (fun o : Option (List (List Nat)) =>
        o.bind (fun rl => rl.get? i)) rest with
    | none => rw [hexts] at hb1; cases hb1
    | some exts =>
      rw [hexts] at hb1
      simp only [Option.map_some'] at hb1
      refine ⟨exts, rfl, ?_⟩
      rw [hb2, ← hb1]
  · rfl
  · rfl

/-- Witness for C10 at the two-lane store
`[some [[2], [5]], some [[3], [7]]]`. -/
theorem merge_seq_length_inplace_witness :
    (mergeSeqLengthStore [some [[2], [5]], some [[3], [7]]]
        = some (some [[2, 3], [5, 7]],
            [some [[2, 3], [5, 7]], some [[3], [7]]]) ∧
      ([[2, 3], [5, 7]] : List (List Nat)).length
        = ([[2], [5]] : List (List Nat)).length ∧
      (∀ i (v : List Nat), ([[2], [5]] : List (List Nat)).get? i = some v →
        ∃ exts, mapOpt (fun o : Option (List (List Nat)) =>
            o.bind (fun rl => rl.get? i)) [some [[3], [7]]] = some exts ∧
          ([[2, 3], [5, 7]] : List (List Nat)).get? i
            = some (v ++ exts.flatten)) ∧
      mergeSeqLength [none, some [[3], [7]]] = some none ∧
      mergeSeqLengthStore [none, some [[3], [7]]]
        = some (none, [none, some [[3], [7]]])) ∧
    mergeSeqLength [some [[2], [5]], some [[3], [7]]]
      = some (some [[2, 3], [5, 7]]) :=
  ⟨merge_seq_length_inplace [[2], [5]] [some [[3], [7]]] [[2, 3], [5, 7]]
      (by decide), by decide⟩

/-- Accumulation of one lane's extra dict into the coalesced extra dict
(`__init__.py` lines 291-295): a new key is inserted, an existing key's
value is extended (`+=`). -/
def coalesceExtra (acc e : ExtraDict) : ExtraDict :=
  e.foldl (fun acc2 kv =>
    match lookupF acc2 kv.1 with
    | none => acc2 ++ [kv]
    | some _ => acc2.map (fun kv2 =>
        if kv2.1 == kv.1 then (kv2.1, kv2.2 ++ kv.2) else kv2)) acc

/-- The drain-coalescing of `DataLoaderBuilder.__next__` (`__init__.py`
lines 313-320): over the keys of the first pulled feed dict, concatenate
the lanes' ndarrays in lane order and merge their sequence-length tables;
`none` is a raised `KeyError` (a later lane missing a key) or
`_merge_seq_length` error. -/
def coalesceFeed (feedDicts : List FeedDict) : Option FeedDict :=
  match feedDicts with
  | [] => none
  | d0 :: _ =>
    mapOpt (fun kv : String × FeedVal =>
      (mapOpt (fun d => lookupF d kv.1) feedDicts).bind (fun vals =>
        (mergeSeqLength (vals.map FeedVal.seqLen)).map (fun merged =>
          (kv.1, FeedVal.mk ((vals.map FeedVal.data).flatten) merged)))) d0

/-- The feed part of one coalescer step's output: one tensor dict per lane,
or — on an uneven drain — one combined tensor dict. -/
inductive StepFeed where
  | perLane (ts : List (List (String × LoDTensor)))
  | single (t : List (String × LoDTensor))
deriving DecidableEq

/-- One coalescer step: `StopIteration`, a raised error, or an output with
the coalesced extra dict and the rest of the stream. -/
inductive StepResult where
  | stop
  | error
  | out (f : StepFeed) (extra : ExtraDict) (rest : List (FeedDict × ExtraDict))
deriving DecidableEq

/-- `DataLoaderBuilder.__next__` with `auto_reset` disabled (`__init__.py`
lines 275-326), over an underlying iterator modelled as the list of batches
it has left: pull one `(feed_dict, extra_dict)` per place until the stream
runs dry, accumulating extra dicts; with zero pulls raise `StopIteration`;
with every place filled, materialize each lane's feed dict onto its own
place; with a partial pull (drained early), materialize the single pulled
feed dict — or the per-key coalescition of the pulled feed dicts — onto the
CPU fallback place. -/
def builderNext (places : List Place)
    (stream : List (FeedDict × ExtraDict)) : StepResult :=
  match stream.take places.length, stream.drop places.length with
  | [], _ => StepResult.stop
  | p0 :: ps, rest =>
    let extra := (p0 :: ps).foldl (fun acc pe => coalesceExtra acc pe.2) []
    if (p0 :: ps).length = places.length then
      StepResult.out (StepFeed.perLane (List.zipWith
        (fun pe pl => toTensor pe.1 pl) (p0 :: ps) places)) extra rest
    else if ps.isEmpty then
      StepResult.out (StepFeed.single (toTensor p0.1 Place.cpu)) extra rest
    else
      match coalesceFeed ((p0 :: ps).map Prod.fst) with
      | some cfd =>
        StepResult.out (StepFeed.single (toTensor cfd Place.cpu)) extra rest
      | none => StepResult.error

/-- A concrete batch: a scalar field `im` and a ragged field `gt` with one
recorded level. -/
def demoFeed (i : Nat) : FeedDict × ExtraDict :=
  ([("im", ⟨[i], none⟩), ("gt", ⟨[10 * i, 10 * i + 1], some [[2]]⟩)],
    [("id", [i])])

/-- A stream of exactly 7 batches. -/
def demoStream : List (FeedDict × ExtraDict) := (List.range 7).map demoFeed

/-- Three device lanes. -/
def demoPlaces : List Place := [Place.cuda 0, Place.cuda 1, Place.cuda 2]

/-- The remaining stream after a successful step, for chaining steps. -/
def stepRest : StepResult → Option (List (FeedDict × ExtraDict))
  | StepResult.out _ _ rest => some rest
  | _ => none

/-- C6.  One coalescer step with auto-reset disabled: with an empty stream
the step raises end-of-stream; with `0 < m < N` batches left (`N` lanes),
the pulled lanes are combined into a single record on the CPU fallback lane
— for one pulled lane its own feed dict, for several their per-key
coalescition (arrays concatenated in lane order, length tables merged
level-wise via `_merge_seq_length`) — and the stream is exhausted.
Concretely, with 3 lanes over a 7-batch stream the first two steps are
normal per-lane steps, the 3rd step yields a single combined record built
from the 1 remaining batch on the CPU lane, and the 4th step raises
end-of-stream. -/
theorem coalescer_step_spec (places : List Place)
    (stream : List (FeedDict × ExtraDict)) (p0 : FeedDict × ExtraDict)
    (cfd : FeedDict) :
    (builderNext places [] = StepResult.stop) ∧
    (stream = [p0] → 1 < places.length →
      builderNext places stream
        = StepResult.out (StepFeed.single (toTensor p0.1 Place.cpu))
            (coalesceExtra [] p0.2) []) ∧
    (2 ≤ stream.length → stream.length < places.length →
      coalesceFeed (stream.map Prod.fst) = some cfd →
      builderNext places stream
        = StepResult.out (StepFeed.single (toTensor cfd Place.cpu))
            (stream.foldl (fun acc pe => coalesceExtra acc pe.2) []) []) ∧
    (stepRest (builderNext demoPlaces demoStream)
        = some (demoStream.drop 3) ∧
      stepRest (builderNext demoPlaces (demoStream.drop 3))
        = some [demoFeed 6] ∧
      builderNext demoPlaces [demoFeed 6]
        = StepResult.out (StepFeed.single (toTensor (demoFeed 6).1 Place.cpu))
            (coalesceExtra [] (demoFeed 6).2) [] ∧
      builderNext demoPlaces []
        = StepResult.stop ∧
      builderNext demoPlaces [demoFeed 0, demoFeed 1]
        = StepResult.out
            (StepFeed.single
              [("im", ⟨[0, 1], none, Place.cpu⟩),
                ("gt", ⟨[0, 1, 10, 11], some [[2, 2]], Place.cpu⟩)])
            [("id", [0, 1])] []) := by
  refine ⟨?_, ?_, ?_, by decide, by decide, by decide, by decide, by decide⟩
  · rw [builderNext]
    simp
  · intro hs hN
    subst hs
    have htake : [p0].take places.length = [p0] :=
      List.take_of_length_le (by simpa using hN.le)
    have hdrop : [p0].drop places.length = [] :=
      List.drop_of_length_le (by simpa using hN.le)
    have hne : ¬(([p0] : List (FeedDict × ExtraDict)).length
        = places.length) := by
      intro hcon
      rw [← hcon] at hN
      exact Nat.lt_irrefl _ hN
    rw [builderNext, htake, hdrop]
    simp only [hne, if_false]
    rfl
  · intro h2 hN hcfd
    have htake : stream.take places.length = stream :=
      List.take_of_length_le hN.le
    have hdrop : stream.drop places.length = [] :=
      List.drop_of_length_le hN.le
    cases stream with
    | nil => simp at h2
    | cons q0 qs =>
      cases qs with
      | nil => simp at h2
      | cons q1 qs2 =>
        have hne : ¬((q0 :: q1 :: qs2).length = places.length) := by
          intro hcon
          rw [hcon] at hN
          exact Nat.lt_irrefl _ hN
        rw [builderNext, htake, hdrop]
        simp only [hne, if_false, List.isEmpty_cons, Bool.false_eq_true,
          hcfd]

/-- The coalesced feed dict of the first two demo batches. -/
def demoCfd : FeedDict :=
  [("im", ⟨[0, 1], none⟩), ("gt", ⟨[0, 1, 10, 11], some [[2, 2]]⟩)]

/-- Witness for C6: two batches left on three lanes coalesce into the single
CPU record `demoCfd`. -/
theorem coalescer_step_spec_witness :
    builderNext demoPlaces [demoFeed 0, demoFeed 1]
      = StepResult.out (StepFeed.single (toTensor demoCfd Place.cpu))
          ([demoFeed 0, demoFeed 1].foldl
            (fun acc pe => coalesceExtra acc pe.2) []) [] :=
  (coalescer_step_spec demoPlaces [demoFeed 0, demoFeed 1] (demoFeed 6)
      demoCfd).2.2.1 (by decide) (by decide) (by decide)
